import Mathlib

/-!
Shallow embedding of the guppi repository manager (Go) for checking its
specification.  The Go source consists of `main.go`, `types.go`,
`pullresults.go` plus rendering files; the definitions below translate the
data model and the pure logic of the cited functions.  External `git`
invocations are modelled by passing their textual outputs (or an oracle of
query results) as explicit parameters: the Go functions are pure functions
of those outputs.
-/

namespace Guppi

/-! ### Go string primitives

The Go code manipulates strings via `strings.TrimSpace`, `strings.Split`,
`strings.Fields`, `strings.Contains`, `strings.HasSuffix` and a regular
expression.  Core Lean `String` operations are iterator-based and do not
reduce in the kernel, so all of these are translated here as executable
functions on `List Char`. -/

/-- `unicode.IsSpace` restricted to the characters that can occur in the
inputs (Latin-1 range): `\t`, `\n`, `\v`, `\f`, `\r`, space, NEL, NBSP.
Used by `strings.TrimSpace` and `strings.Fields`. -/
def unicodeSpace (c : Char) : Bool :=
  (9 ≤ c.toNat && c.toNat ≤ 13) || c = ' ' || c.toNat = 133 || c.toNat = 160

/-- The Go regexp character class `\s`, which is `[\t\n\f\r ]` (no `\v`). -/
def regexSpace (c : Char) : Bool :=
  c = '\t' || c = '\n' || c.toNat = 12 || c = '\r' || c = ' '

/-- The Go regexp character class `\d`, which is `[0-9]`. -/
def goDigit (c : Char) : Bool :=
  48 ≤ c.toNat && c.toNat ≤ 57

/-- `strings.TrimSpace` on a rune list. -/
def goTrim (l : List Char) : List Char :=
  ((l.dropWhile unicodeSpace).reverse.dropWhile unicodeSpace).reverse

/-- `strings.TrimSpace` on a `String`. -/
def goTrimStr (s : String) : String :=
  String.mk (goTrim s.data)

/-- Helper for `splitLines`: accumulates the current line (reversed). -/
def splitLinesAux : List Char → List Char → List (List Char)
  | [], acc => [acc.reverse]
  | c :: cs, acc =>
    if c = '\n' then acc.reverse :: splitLinesAux cs []
    else splitLinesAux cs (c :: acc)

/-- `strings.Split(s, "\n")`. -/
def splitLines (l : List Char) : List (List Char) :=
  splitLinesAux l []

/-- `strings.Contains(hay, sub)`: does `sub` occur as a contiguous
subsequence of `hay`? -/
def containsSeq : List Char → List Char → Bool
  | [], sub => sub.isEmpty
  | h :: t, sub => List.isPrefixOf sub (h :: t) || containsSeq t sub

/-- `strings.HasSuffix`. -/
def endsWithSeq (l suf : List Char) : Bool :=
  List.isPrefixOf suf.reverse l.reverse

/-- Helper for `goFields`: accumulates the current field (reversed). -/
def goFieldsAux : List Char → List Char → List (List Char)
  | [], acc => if acc.isEmpty then [] else [acc.reverse]
  | c :: cs, acc =>
    if unicodeSpace c then
      if acc.isEmpty then goFieldsAux cs []
      else acc.reverse :: goFieldsAux cs []
    else goFieldsAux cs (c :: acc)

/-- `strings.Fields`: split around runs of whitespace, no empty fields. -/
def goFields (l : List Char) : List (List Char) :=
  goFieldsAux l []

/-- Boolean string membership in a list (uses propositional equality so
that proofs need no `BEq` reasoning). -/
def memb (k : String) (ks : List String) : Bool :=
  ks.any fun x => x = k

/-- Decimal value of a digit list (as produced by the regexp group `\d+`). -/
def digitsVal (ds : List Char) : Nat :=
  ds.foldl (fun n c => n * 10 + (c.toNat - 48)) 0

/-- `strconv.Atoi` on a candidate count.  The inputs it receives in this
program are decimal digit strings (a `\d+` regexp group, or the output of
`git rev-list --count`); Atoi fails on anything else and on values beyond
the 64-bit `int` range, in which case the callers keep their zero default.
Modelled on `Nat` since the parsed counts are non-negative. -/
def goAtoiNat (ds : List Char) : Option Nat :=
  if ds ≠ [] ∧ ds.all goDigit = true ∧ digitsVal ds ≤ 9223372036854775807 then
    some (digitsVal ds)
  else none

/-- `filepath.Base`. -/
def goBase (s : String) : String :=
  if s.data = [] then "."
  else
    let cs := (s.data.reverse.dropWhile (fun c => c = '/')).reverse
    if cs = [] then "/"
    else String.mk (cs.reverse.takeWhile (fun c => c ≠ '/')).reverse

/-- Byte-wise lexicographic `<` on Go strings (on code points; identical
to UTF-8 byte order).  Used only as the tie-break inside the branch sort. -/
def lexLt : List Char → List Char → Bool
  | [], [] => false
  | [], _ :: _ => true
  | _ :: _, [] => false
  | a :: as, b :: bs =>
    if a.toNat < b.toNat then true
    else if b.toNat < a.toNat then false
    else lexLt as bs

/-! ### The data model (`types.go`) -/

/-- `GitStatus` (types.go). -/
inductive GitStatus where
  | StatusUnknown
  | StatusClean
  | StatusCleanBehind
  | StatusDirty
  | StatusError
deriving DecidableEq

/-- `Repo` (types.go).  `BehindCount` is an `int` in Go but every value
assigned to it is a commit count (`git rev-list --count` output or 0), so
it is modelled as `Nat`. -/
structure Repo where
  Path : String
  Name : String
  Branch : String
  Status : GitStatus
  StatusText : String
  IsFavorite : Bool
  PullResult : String
  BehindCount : Nat
deriving DecidableEq

/-- `BranchInfo` (types.go). -/
structure BranchInfo where
  Name : String
  IsLocal : Bool
  IsRemote : Bool
  IsCurrent : Bool
  RemoteName : String
deriving DecidableEq

/-- `CommitInfo` (types.go). -/
structure CommitInfo where
  Hash : String
  Message : String
  Author : String
  Time : String
deriving DecidableEq

/-- `PullResultInfo` (types.go).  `FilesChanged` is a count. -/
structure PullResultInfo where
  RepoPath : String
  RepoName : String
  Commits : List CommitInfo
  FilesChanged : Nat
  Updated : Bool
deriving DecidableEq

/-- `viewMode` (types.go). -/
inductive viewMode where
  | listView
  | detailView
  | configView
  | actionSelectView
  | errorView
  | settingsView
  | groupInputView
  | groupDeleteView
  | groupSelectView
  | groupAddReposView
  | pullResultsView
deriving DecidableEq

/-- `pullCompleteMsg` (types.go); `err : Option String` models the Go
`error` (`none` = `nil`). -/
structure pullCompleteMsg where
  path : String
  result : String
  shortResult : String
  err : Option String
deriving DecidableEq

/-- `statusUpdatedMsg` (types.go). -/
structure statusUpdatedMsg where
  path : String
  branch : String
  status : GitStatus
  text : String
  behindCount : Nat
deriving DecidableEq

/-! ### Go map primitives

`m.pendingPulls` is a Go `map[string]string`.  It is modelled as an
association list whose key set is kept duplicate-free by construction;
since a Go map is unordered and all verified properties are
order-independent, insertion order is used as the iteration order. -/

/-- `delete(m, k)` — also the "no such key" no-op. -/
def mapErase (pp : List (String × String)) (k : String) : List (String × String) :=
  pp.filter fun kv => kv.1 ≠ k

/-- `m[k] = v`: replaces any existing entry for `k`. -/
def mapInsert (pp : List (String × String)) (k v : String) : List (String × String) :=
  mapErase pp k ++ [(k, v)]

/-- `_, ok := m[k]`. -/
def mapMem (pp : List (String × String)) (k : String) : Bool :=
  pp.any fun kv => kv.1 = k

/-- `v, ok := m[k]`. -/
def mapLookup (pp : List (String × String)) (k : String) : Option String :=
  (pp.find? fun kv => kv.1 = k).map Prod.snd

/-! ### Pull results parsing (`pullresults.go`) -/

/-- `FileChange` (pullresults.go).  Additions/deletions are counts. -/
structure FileChange where
  Path : String
  Additions : Nat
  Deletions : Nat
deriving DecidableEq

/-- `PullResultsCursor` (pullresults.go).  The Go fields are `int`s that
the methods keep non-negative; modelled as `Nat`. -/
structure PullResultsCursor where
  Level : Nat
  RepoIdx : Nat
  CommitIdx : Nat
  FileIdx : Nat
deriving DecidableEq

/-- `(*PullResultsCursor).GoDeeper` (pullresults.go).  The Go method
mutates the receiver and returns whether it moved; modelled as a pair. -/
def PullResultsCursor.GoDeeper (c : PullResultsCursor) : PullResultsCursor × Bool :=
  if c.Level < 2 then
    let c1 := { c with Level := c.Level + 1 }
    let c2 :=
      if c1.Level = 1 then { c1 with CommitIdx := 0 }
      else if c1.Level = 2 then { c1 with FileIdx := 0 }
      else c1
    (c2, true)
  else (c, false)

/-- `(*PullResultsCursor).GoUp` (pullresults.go). -/
def PullResultsCursor.GoUp (c : PullResultsCursor) : PullResultsCursor × Bool :=
  if c.Level > 0 then ({ c with Level := c.Level - 1 }, true)
  else (c, false)

/-- Descend-then-ascend round trip on the cursor. -/
def PullResultsCursor.roundTrip (c : PullResultsCursor) : PullResultsCursor :=
  (PullResultsCursor.GoUp (PullResultsCursor.GoDeeper c).1).1

/-- One submatch of the Go regexp
`^\s*(.+?)\s*\|\s*(\d+)?\s*(\+*)(-*)`
(pullresults.go, `statPattern`), under Go's leftmost-first (Perl-style)
match semantics, returning `(group1, group2, |group3|, |group4|)`.

Derivation of the fixed pattern: the leading greedy `\s*` consumes the
whole whitespace prefix (length `maxW`) when a `|` exists strictly after
it, and backtracks by exactly one character when the sole usable `|` sits
immediately after the prefix (the lazy `.+?` needs at least one
character).  The lazy group 1 then ends at the earliest point from which
`\s*` reaches the first eligible `|`.  Everything after the `|` always
matches: greedy whitespace, an optional digit run, greedy whitespace, a
`+` run, a `-` run. -/
def matchStat (s : List Char) : Option (List Char × List Char × Nat × Nat) :=
  let maxW := (s.takeWhile regexSpace).length
  let kp : Option (Nat × Nat) :=
    match (s.drop (maxW + 1)).findIdx? (fun c => c = '|') with
    | some i => some (maxW, maxW + 1 + i)
    | none =>
      match s.drop maxW with
      | '|' :: _ => if maxW = 0 then none else some (maxW - 1, maxW)
      | _ => none
  match kp with
  | none => none
  | some (k, p) =>
    let wsRun := ((s.take p).reverse.takeWhile regexSpace).length
    let t := max (k + 1) (p - wsRun)
    let g1 := (s.take t).drop k
    let rest := (s.drop (p + 1)).dropWhile regexSpace
    let ds := rest.takeWhile goDigit
    let rest2 := (rest.drop ds.length).dropWhile regexSpace
    let plus := (rest2.takeWhile (fun c => c = '+')).length
    let minus := ((rest2.drop plus).takeWhile (fun c => c = '-')).length
    some (g1, ds, plus, minus)

/-- The body of the `parseGitStatOutput` loop (pullresults.go) for one
line: `none` when the line is skipped or the regexp does not match. -/
def parseStatLine (line : List Char) : Option FileChange :=
  if containsSeq line ("files changed".data) = true then none
  else if containsSeq line ("file changed".data) = true then none
  else if goTrim line = [] then none
  else
    match matchStat line with
    | none => none
    | some (g1, ds, plus, minus) =>
      let path := String.mk (goTrim g1)
      if ds ≠ [] ∧ plus = 0 ∧ minus = 0 then
        match goAtoiNat ds with
        | some count => some ⟨path, count / 2, count - count / 2⟩
        | none => some ⟨path, plus, minus⟩
      else some ⟨path, plus, minus⟩

/-- `parseGitStatOutput` (pullresults.go). -/
def parseGitStatOutput (output : String) : List FileChange :=
  (splitLines (goTrim output.data)).filterMap parseStatLine

/-! ### Status refresher (`checkGitStatus`, main.go 1421-1488)

The function shells out to git three times; it is a pure function of the
three textual results, passed here as parameters.  `branchOut` is the
`rev-parse --abbrev-ref HEAD` output (its error is ignored by the code),
`behindOut` is the `rev-list --count HEAD..@{u}` result (`none` = the
command failed), `statusOut` is the `status --porcelain` result. -/
def checkGitStatus (path : String) (branchOut : String) (behindOut : Option String)
    (statusOut : Option String) : statusUpdatedMsg :=
  let branch0 := goTrimStr branchOut
  let branch := if branch0 = "" then "?" else branch0
  let behindCount :=
    match behindOut with
    | some out => (goAtoiNat (goTrim out.data)).getD 0
    | none => 0
  match statusOut with
  | none =>
    { path := path, branch := branch, status := GitStatus.StatusError
      text := "failed to get status", behindCount := 0 }
  | some output =>
    let lines := goTrimStr output
    if lines = "" then
      if behindCount > 0 then
        { path := path, branch := branch, status := GitStatus.StatusCleanBehind
          text := "", behindCount := behindCount }
      else
        { path := path, branch := branch, status := GitStatus.StatusClean
          text := "", behindCount := 0 }
    else
      let lineCount := (splitLines lines.data).length
      { path := path, branch := branch, status := GitStatus.StatusDirty
        text := Nat.repr lineCount ++ " changed", behindCount := behindCount }

/-! ### Branch reconciler (`loadBranches`, main.go 1570-1687)

A pure function of the trimmed-current-branch query output, the
`for-each-ref refs/heads/` output and the `for-each-ref refs/remotes/`
output.  The two Go maps (`localBranches`, `remoteBranches`) are modelled
as duplicate-free lists; Go iterates maps in unspecified order and every
property proved below is order-independent. -/

/-- One line of the `refs/heads/` listing added to the `localBranches`
map: `parts := strings.Fields(line)`, key `parts[0]`, value `parts[1]`
(or "" when absent). -/
def addLocalLine (lb : List (String × String)) (parts : List (List Char)) :
    List (String × String) :=
  match parts with
  | [] => lb
  | p0 :: rest =>
    if p0 ≠ [] then
      mapInsert lb (String.mk p0) (match rest with | [] => "" | p1 :: _ => String.mk p1)
    else lb

/-- The `localBranches` map (local name → configured upstream). -/
def parseLocalLines (branchOut : String) : List (String × String) :=
  List.foldl addLocalLine [] ((splitLines (goTrim branchOut.data)).map goFields)

/-- Set insertion for the `remoteBranches` set. -/
def setInsert (rs : List String) (x : String) : List String :=
  if memb x rs = true then rs else rs ++ [x]

/-- The `remoteBranches` set: trimmed nonempty lines not ending in
`/HEAD`. -/
def parseRemoteLines (remoteOut : String) : List String :=
  List.foldl
    (fun rs bl =>
      let b := goTrim bl
      if b ≠ [] ∧ endsWithSeq b ("/HEAD".data) = false then setInsert rs (String.mk b)
      else rs)
    [] (splitLines (goTrim remoteOut.data))

/-- The `BranchInfo` built for one `localBranches` entry.  (In the Go
loop `hasRemote`/`remoteName` do not depend on the accumulated
`seenRemotes`, so the loop is a `map` on the entries.) -/
def mkLocalBranch (current : String) (remotes : List String) (lb : String × String) :
    BranchInfo :=
  if lb.2 ≠ "" then
    { Name := lb.1, IsLocal := true, IsRemote := memb lb.2 remotes
      IsCurrent := lb.1 = current, RemoteName := lb.2 }
  else if memb ("origin/" ++ lb.1) remotes = true then
    { Name := lb.1, IsLocal := true, IsRemote := true
      IsCurrent := lb.1 = current, RemoteName := "origin/" ++ lb.1 }
  else
    { Name := lb.1, IsLocal := true, IsRemote := false
      IsCurrent := lb.1 = current, RemoteName := "" }

/-- The remote name a `localBranches` entry marks in `seenRemotes`. -/
def claimedRemote (remotes : List String) (lb : String × String) : Option String :=
  if lb.2 ≠ "" then some lb.2
  else if memb ("origin/" ++ lb.1) remotes = true then some ("origin/" ++ lb.1)
  else none

/-- `strings.TrimPrefix(remoteName, "origin/")` guarded by
`strings.HasPrefix`. -/
def stripOrigin (r : String) : String :=
  if List.isPrefixOf ("origin/".data) r.data = true then String.mk (r.data.drop 7) else r

/-- The synthesized remote-only entry. -/
def mkRemoteOnly (r : String) : BranchInfo :=
  { Name := stripOrigin r, IsLocal := false, IsRemote := true
    IsCurrent := false, RemoteName := r }

/-- The `sort.Slice` comparator of `loadBranches`. -/
def branchLess (a b : BranchInfo) : Bool :=
  if a.IsCurrent then true
  else if b.IsCurrent then false
  else
    let aBoth := a.IsLocal && a.IsRemote
    let bBoth := b.IsLocal && b.IsRemote
    if aBoth ≠ bBoth then aBoth
    else if a.IsLocal ≠ b.IsLocal then a.IsLocal
    else lexLt a.Name.data b.Name.data

/-- The `branches` slice of `loadBranches` before `sort.Slice`: local
entries followed by the remote-only entries not claimed in `seenRemotes`. -/
def loadBranchesUnsorted (currentOut branchOut remoteOut : String) : List BranchInfo :=
  (parseLocalLines branchOut).map
      (mkLocalBranch (goTrimStr currentOut) (parseRemoteLines remoteOut))
    ++ ((parseRemoteLines remoteOut).filter
        (fun r => !(memb r ((parseLocalLines branchOut).filterMap
            (claimedRemote (parseRemoteLines remoteOut)))))).map mkRemoteOnly

/-- `loadBranches` (main.go): the branch list computed from the three git
query outputs.  `sort.Slice` is unstable, so the Go result is some
permutation ordered by `branchLess`; `mergeSort` picks one such
permutation. -/
def loadBranches (currentOut branchOut remoteOut : String) : List BranchInfo :=
  (loadBranchesUnsorted currentOut branchOut remoteOut).mergeSort branchLess

/-! ### Status filters (`getFilteredRepos` / `updateList`, main.go) -/

/-- The filter predicate shared by `updateList` and `getFilteredRepos`
(main.go 1098-1138): skip when the dirty filter is on and the repo is not
dirty; skip when the behind filter is on and the behind count is zero. -/
def keepRepo (filterDirty filterBehind : Bool) (repo : Repo) : Bool :=
  if filterDirty = true ∧ repo.Status ≠ GitStatus.StatusDirty then false
  else if filterBehind = true ∧ repo.BehindCount = 0 then false
  else true

/-- `getFilteredRepos` (main.go 1126-1138). -/
def getFilteredRepos (filterDirty filterBehind : Bool) (repos : List Repo) : List Repo :=
  repos.filter (keepRepo filterDirty filterBehind)

/-! ### The pull-completion reducer (`Update`, `pullCompleteMsg` case,
types.go 1473-1552)

`getHeadCommit`, `getCommitsBetween` and `getFilesChangedCount` shell out
to git and are defined in a source file that is not part of `src/`; they
are modelled as an oracle of query results, consulted at completion time
exactly as the code does. -/

/-- The git queries the pull-completion handler performs.
`getCommitsBetween p old new` is, per the spec (§4.5), the commit list
strictly between the two references (newest first);
`getFilesChangedCount` the aggregate changed-file count of that range. -/
structure GitOracle where
  getHeadCommit : String → String
  getCommitsBetween : String → String → String → List CommitInfo
  getFilesChangedCount : String → String → String → Nat

/-- The slice of the `model` state (types.go) that the pull paths touch.
Rendering-only fields (viewport, list filter, spinner) are omitted. -/
structure Model where
  repos : List Repo
  pendingPulls : List (String × String)
  pullResults : List PullResultInfo
  pulling : Bool
  statusMsg : String
  errorMsg : String
  mode : viewMode
  previousMode : viewMode
  showPullResults : Bool
  pullResultsCursorIdx : Nat
  pullExpanded : List String
deriving DecidableEq

/-- The `for i := range m.repos` loop of the handler: set `PullResult` of
the first repo whose path matches (the loop `break`s at the match). -/
def setPullResult (repos : List Repo) (path v : String) : List Repo :=
  match repos with
  | [] => []
  | r :: rs =>
    if r.Path = path then { r with PullResult := v } :: rs
    else r :: setPullResult rs path v

/-- `repoName` as resolved by the handler: the matching repo's `Name`,
else `filepath.Base(msg.path)`. -/
def resolveRepoName (m : Model) (path : String) : String :=
  match m.repos.find? (fun r => r.Path = path) with
  | some r => r.Name
  | none => goBase path

/-- The pending-pull set after one completion event: remove the path if
present (`delete` inside the `ok` branch). -/
def pendingAfter (pp : List (String × String)) (path : String) : List (String × String) :=
  if mapMem pp path = true then mapErase pp path else pp

/-- The result-collection step of the handler: append a `PullResultInfo`
exactly when the path was pending, the pull succeeded, the output does not
contain "Already up to date", and the commit range is non-empty. -/
def appendResult (g : GitOracle) (pullResults : List PullResultInfo)
    (pp : List (String × String)) (repoName : String) (msg : pullCompleteMsg) :
    List PullResultInfo :=
  match mapLookup pp msg.path with
  | some oldHead =>
    if msg.err = none ∧ containsSeq msg.result.data ("Already up to date".data) = false then
      let newHead := g.getHeadCommit msg.path
      let commits := g.getCommitsBetween msg.path oldHead newHead
      let filesChanged := g.getFilesChangedCount msg.path oldHead newHead
      if 0 < commits.length then
        pullResults ++ [{ RepoPath := msg.path, RepoName := repoName, Commits := commits
                          FilesChanged := filesChanged, Updated := true }]
      else pullResults
    else pullResults
  | none => pullResults

/-- The `pullExpanded` map built when the results screen opens: the first
result's repo is pre-expanded. -/
def expandFirst (results : List PullResultInfo) : List String :=
  match results with
  | [] => []
  | r :: _ => [r.RepoPath]

/-- The `pullCompleteMsg` case of `Update` (types.go 1473-1552).  The
dispatched follow-up task (`checkGitStatus`) and the rendering-only filter
save/restore and `updateList` calls are not part of the state slice. -/
def handlePullComplete (g : GitOracle) (m : Model) (msg : pullCompleteMsg) : Model :=
  let found := m.repos.find? (fun r => r.Path = msg.path)
  let repoName := resolveRepoName m msg.path
  let m1 : Model :=
    { m with
      repos := setPullResult m.repos msg.path (if msg.err.isSome then "error" else msg.shortResult)
      errorMsg := if found.isSome && msg.err.isNone then "" else m.errorMsg
      pullResults := appendResult g m.pullResults m.pendingPulls repoName msg
      pendingPulls := pendingAfter m.pendingPulls msg.path }
  let allDone := m1.pendingPulls.isEmpty
  if msg.err.isSome then
    { m1 with
      statusMsg := ""
      errorMsg := "Pull failed for " ++ repoName ++ ":\n\n" ++ msg.result
      previousMode := m1.mode
      mode := viewMode.errorView
      pulling := !allDone }
  else if allDone then
    if m1.showPullResults && 0 < m1.pullResults.length then
      { m1 with
        pulling := false
        mode := viewMode.pullResultsView
        pullResultsCursorIdx := 0
        pullExpanded := expandFirst m1.pullResults
        statusMsg := "" }
    else
      { m1 with
        pulling := false
        statusMsg := "Pulled " ++ repoName ++ ": " ++ msg.shortResult }
  else
    { m1 with statusMsg := "Pulled " ++ repoName ++ ": " ++ msg.shortResult }

/-- The batch-begin of the "P" handler (types.go 1023-1077): clear the
previous results, rebuild the pending map capturing the current head of
every repo in the batch. -/
def beginBatch (g : GitOracle) (m : Model) (repos : List Repo) : Model :=
  { m with
    pullResults := []
    pendingPulls :=
      List.foldl (fun pp (r : Repo) => mapInsert pp r.Path (g.getHeadCommit r.Path)) [] repos,
    pulling := if repos.isEmpty then m.pulling else true }

/-- The single-pull "p" handler's state change (types.go 1014-1021): the
head captured now overwrites any pending entry for the same path. -/
def beginSinglePull (g : GitOracle) (m : Model) (path name : String) : Model :=
  { m with
    pulling := true
    statusMsg := "Pulling " ++ name ++ "..."
    pendingPulls := mapInsert m.pendingPulls path (g.getHeadCommit path)
    pullResults := [] }

/-! ### Branch deletion keys (`Update`, detail view "x"/"X",
types.go 580-611 / main.go 477-511; both copies are identical) -/

/-- The detail-view state slice the "x"/"X" handlers read and write. -/
structure BranchPane where
  branches : List BranchInfo
  branchIndex : Nat
  statusMsg : String
  hasDetailRepo : Bool
  repoPath : String
deriving DecidableEq

/-- A dispatched `deleteBranch(path, branch, force)` task. -/
structure DeleteTask where
  path : String
  branch : String
  force : Bool
deriving DecidableEq

/-- The two delete keys. -/
inductive BranchKey where
  | x
  | X
deriving DecidableEq

/-- The "x"/"X" cases of `Update` in the branches pane.  Go indexes
`m.branches[m.branchIndex]` unchecked after the `len > 0` guard; an
out-of-range index panics, modelled as `none`. -/
def handleBranchKey (st : BranchPane) (k : BranchKey) :
    Option (BranchPane × Option DeleteTask) :=
  if 0 < st.branches.length ∧ st.hasDetailRepo = true then
    match st.branches[st.branchIndex]? with
    | none => none
    | some branch =>
      match k with
      | BranchKey.x =>
        if branch.IsCurrent then
          some ({ st with statusMsg := "Cannot delete current branch" }, none)
        else if !branch.IsLocal then
          some ({ st with statusMsg := "Branch is remote-only, nothing to delete locally" }, none)
        else if branch.IsRemote then
          some ({ st with statusMsg := "Branch exists on remote. Use 'X' to force delete." }, none)
        else
          some (st, some { path := st.repoPath, branch := branch.Name, force := false })
      | BranchKey.X =>
        if branch.IsCurrent then
          some ({ st with statusMsg := "Cannot delete current branch" }, none)
        else if !branch.IsLocal then
          some ({ st with statusMsg := "Branch is remote-only" }, none)
        else
          some (st, some { path := st.repoPath, branch := branch.Name, force := true })
  else some (st, none)


/-! ### Concrete instances used by witness theorems -/

/-- Concrete oracle for witness instantiations: the commit range is empty
exactly when the two references coincide. -/
def oracleW : GitOracle :=
  { getHeadCommit := fun _ => "h2"
    getCommitsBetween := fun _ a b =>
      if a = b then [] else [{ Hash := "c1", Message := "m", Author := "a", Time := "t" }]
    getFilesChangedCount := fun _ _ _ => 1 }

/-- Concrete model for witness instantiations: one repo with one pending
pull captured at head "h1". -/
def modelW : Model :=
  { repos := [{ Path := "r"
                Name := "repo"
                Branch := "main"
                Status := GitStatus.StatusClean
                StatusText := ""
                IsFavorite := false
                PullResult := ""
                BehindCount := 0 }]
    pendingPulls := [("r", "h1")]
    pullResults := []
    pulling := true
    statusMsg := ""
    errorMsg := ""
    mode := viewMode.listView
    previousMode := viewMode.listView
    showPullResults := true
    pullResultsCursorIdx := 0
    pullExpanded := [] }

/-- Successful completion message for the pending repo of `modelW`. -/
def msgW : pullCompleteMsg :=
  { path := "r", result := "Updating 1..2", shortResult := "ok", err := none }

/-- Completion message for a path with no pending entry in `modelW`. -/
def msgStaleW : pullCompleteMsg :=
  { path := "other", result := "ok", shortResult := "ok", err := none }

/-- Branch pane for witness instantiations: the current branch selected. -/
def paneW : BranchPane :=
  { branches := [{ Name := "main"
                   IsLocal := true
                   IsRemote := true
                   IsCurrent := true
                   RemoteName := "origin/main" }]
    branchIndex := 0
    statusMsg := ""
    hasDetailRepo := true
    repoPath := "/r" }

/-- The branch selected in `paneW`. -/
def branchW : BranchInfo :=
  { Name := "main", IsLocal := true, IsRemote := true, IsCurrent := true
    RemoteName := "origin/main" }

/-! ## Helper lemmas -/

theorem splitLinesAux_no_nl (l : List Char) (acc : List Char)
    (hnl : ∀ c ∈ l, c ≠ '\n') :
    splitLinesAux l acc = [acc.reverse ++ l] := by
  induction l generalizing acc with
  | nil => simp [splitLinesAux]
  | cons c t ih =>
    have hc : ¬ c = '\n' := hnl c (List.mem_cons_self c t)
    have ht : ∀ x ∈ t, x ≠ '\n' := fun x hx => hnl x (List.mem_cons_of_mem c hx)
    simp [splitLinesAux, hc, ih _ ht]

theorem splitLines_no_nl (l : List Char) (hnl : ∀ c ∈ l, c ≠ '\n') :
    splitLines l = [l] := by
  simpa using splitLinesAux_no_nl l [] hnl

/-! ## Claim theorems -/

/-- C3 (counterexample): the spec scenario says the line
`" src/app.go | 12 +++++-----"` parses to additions=6, deletions=6; the
code does not produce that value. -/
theorem stat_line_example_cex :
    ¬ (parseGitStatOutput " src/app.go | 12 +++++-----"
        = [{ Path := "src/app.go", Additions := 6, Deletions := 6 }]) := by decide

/-- C3 (amended): the line carries explicit `+`/`-` marks (five of each),
so `parseGitStatOutput` counts the marks and yields additions=5,
deletions=5; the numeric count 12 is not consulted. -/
theorem stat_line_example :
    parseGitStatOutput " src/app.go | 12 +++++-----"
      = [{ Path := "src/app.go", Additions := 5, Deletions := 5 }] := by decide

/-- C5 (counterexample): descending from the repo level resets the commit
index to 0, so descend-then-ascend loses a previously nonzero commit
index. -/
theorem cursor_round_trip_cex :
    ¬ (PullResultsCursor.roundTrip { Level := 0, RepoIdx := 0, CommitIdx := 1, FileIdx := 0 }
        = { Level := 0, RepoIdx := 0, CommitIdx := 1, FileIdx := 0 }) := by decide

/-- C5 (amended): for every cursor state from which descend succeeds
(level 0 or 1), descend immediately followed by ascend restores the exact
prior level and the indices at and above that level; the index of the
level descended into is reset to 0. -/
theorem cursor_round_trip_amended (c : PullResultsCursor) (h : c.Level < 2) :
    (PullResultsCursor.GoDeeper c).2 = true
    ∧ (PullResultsCursor.GoUp (PullResultsCursor.GoDeeper c).1).2 = true
    ∧ (PullResultsCursor.roundTrip c).Level = c.Level
    ∧ (PullResultsCursor.roundTrip c).RepoIdx = c.RepoIdx
    ∧ (c.Level = 0 → (PullResultsCursor.roundTrip c).FileIdx = c.FileIdx
        ∧ (PullResultsCursor.roundTrip c).CommitIdx = 0)
    ∧ (c.Level = 1 → (PullResultsCursor.roundTrip c).CommitIdx = c.CommitIdx
        ∧ (PullResultsCursor.roundTrip c).FileIdx = 0) := by
  rcases c with ⟨l, ri, ci, fi⟩
  simp only at h
  interval_cases l <;>
    simp [PullResultsCursor.roundTrip, PullResultsCursor.GoDeeper, PullResultsCursor.GoUp]

/-- Witness for `cursor_round_trip_amended` at the cursor (1, 2, 3, 4). -/
theorem cursor_round_trip_amended_witness :
    (({ Level := 1, RepoIdx := 2, CommitIdx := 3, FileIdx := 4 } : PullResultsCursor).Level < 2)
    ∧ ((PullResultsCursor.GoDeeper { Level := 1, RepoIdx := 2, CommitIdx := 3, FileIdx := 4 }).2 = true
    ∧ (PullResultsCursor.GoUp (PullResultsCursor.GoDeeper { Level := 1, RepoIdx := 2, CommitIdx := 3, FileIdx := 4 }).1).2 = true
    ∧ (PullResultsCursor.roundTrip { Level := 1, RepoIdx := 2, CommitIdx := 3, FileIdx := 4 }).Level
        = ({ Level := 1, RepoIdx := 2, CommitIdx := 3, FileIdx := 4 } : PullResultsCursor).Level
    ∧ (PullResultsCursor.roundTrip { Level := 1, RepoIdx := 2, CommitIdx := 3, FileIdx := 4 }).RepoIdx
        = ({ Level := 1, RepoIdx := 2, CommitIdx := 3, FileIdx := 4 } : PullResultsCursor).RepoIdx
    ∧ (({ Level := 1, RepoIdx := 2, CommitIdx := 3, FileIdx := 4 } : PullResultsCursor).Level = 0 →
        (PullResultsCursor.roundTrip { Level := 1, RepoIdx := 2, CommitIdx := 3, FileIdx := 4 }).FileIdx
          = ({ Level := 1, RepoIdx := 2, CommitIdx := 3, FileIdx := 4 } : PullResultsCursor).FileIdx
        ∧ (PullResultsCursor.roundTrip { Level := 1, RepoIdx := 2, CommitIdx := 3, FileIdx := 4 }).CommitIdx = 0)
    ∧ (({ Level := 1, RepoIdx := 2, CommitIdx := 3, FileIdx := 4 } : PullResultsCursor).Level = 1 →
        (PullResultsCursor.roundTrip { Level := 1, RepoIdx := 2, CommitIdx := 3, FileIdx := 4 }).CommitIdx
          = ({ Level := 1, RepoIdx := 2, CommitIdx := 3, FileIdx := 4 } : PullResultsCursor).CommitIdx
        ∧ (PullResultsCursor.roundTrip { Level := 1, RepoIdx := 2, CommitIdx := 3, FileIdx := 4 }).FileIdx = 0)) :=
  ⟨by decide, cursor_round_trip_amended _ (by decide)⟩

/-- C6 (counterexample): with the behind query answering "3" the computed
behind count is 3 (visible when the status query succeeds), yet when the
status (dirty-check) query fails the message reports behindCount 0 — the
behind result is suppressed, refuting the claim that it is still
reported. -/
theorem status_error_suppresses_behind_cex :
    (checkGitStatus "r" "main" (some "3") (some "")).behindCount = 3
    ∧ (checkGitStatus "r" "main" (some "3") none).behindCount = 0
    ∧ ¬ ((checkGitStatus "r" "main" (some "3") none).behindCount = 3) := by decide

/-- C6 (amended): a behind-query failure does not suppress the dirty
check — the status is still computed from the status query (with behind
count 0); but a dirty-check failure yields `StatusError` with
behindCount 0 regardless of the behind query's result. -/
theorem status_query_independence (path branchOut : String) (behindOut : Option String)
    (statusText : String) :
    ((checkGitStatus path branchOut none (some statusText)).status
        = if goTrimStr statusText = "" then GitStatus.StatusClean else GitStatus.StatusDirty)
    ∧ (checkGitStatus path branchOut behindOut none).status = GitStatus.StatusError
    ∧ (checkGitStatus path branchOut behindOut none).behindCount = 0 := by
  refine ⟨?_, rfl, rfl⟩
  by_cases h : goTrimStr statusText = "" <;> simp [checkGitStatus, h]

/-- C8: with both filters enabled the filtered list is exactly the dirty
repositories with positive behind count, and disabling either filter
widens the result (the doubly-filtered list is a sublist of each
singly-filtered list). -/
theorem filters_compose_and_widen (repos : List Repo) :
    getFilteredRepos true true repos
      = repos.filter (fun r => decide (r.Status = GitStatus.StatusDirty ∧ 0 < r.BehindCount))
    ∧ (getFilteredRepos true true repos).Sublist (getFilteredRepos false true repos)
    ∧ (getFilteredRepos true true repos).Sublist (getFilteredRepos true false repos) := by
  refine ⟨?_, ?_, ?_⟩
  · apply List.filter_congr
    intro r _
    by_cases h1 : r.Status = GitStatus.StatusDirty <;>
      by_cases h2 : r.BehindCount = 0 <;>
        (simp [keepRepo, h1, h2]; try omega)
  · apply List.monotone_filter_right
    intro r h
    by_cases h1 : r.Status = GitStatus.StatusDirty <;>
      by_cases h2 : r.BehindCount = 0 <;>
        simp_all [keepRepo]
  · apply List.monotone_filter_right
    intro r h
    by_cases h1 : r.Status = GitStatus.StatusDirty <;>
      by_cases h2 : r.BehindCount = 0 <;>
        simp_all [keepRepo]

/-- C4: for every diff-stat line whose regexp match captures a numeric
count but no `+`/`-` marks, the count is apportioned evenly: additions =
count/2 (floor), deletions = count - count/2, so they sum to the count
and an odd remainder goes to deletions. -/
theorem count_only_line_split (line : String) (g1 ds : List Char) (count : Nat)
    (hnl : ∀ c ∈ line.data, c ≠ '\n')
    (htrim : goTrim line.data = line.data)
    (h1 : containsSeq line.data ("files changed".data) = false)
    (h2 : containsSeq line.data ("file changed".data) = false)
    (hm : matchStat line.data = some (g1, ds, 0, 0))
    (ha : goAtoiNat ds = some count) :
    parseGitStatOutput line
      = [{ Path := String.mk (goTrim g1), Additions := count / 2,
           Deletions := count - count / 2 }]
    ∧ count / 2 + (count - count / 2) = count := by
  have hds : ds ≠ [] := by
    intro h0
    rw [h0] at ha
    simp [goAtoiNat] at ha
  have hne : line.data ≠ [] := by
    intro h0
    rw [h0] at hm
    simp [matchStat] at hm
  constructor
  · unfold parseGitStatOutput
    rw [htrim, splitLines_no_nl line.data hnl]
    simp only [List.filterMap]
    unfold parseStatLine
    rw [htrim, hm]
    simp only [h1, h2, Bool.false_eq_true, if_false, if_neg hne]
    rw [if_pos ⟨hds, by trivial, by trivial⟩, ha]
  · have : count / 2 ≤ count := Nat.div_le_self count 2
    omega

/-- Witness for `count_only_line_split` on the line "a | 3". -/
theorem count_only_line_split_witness :
    ((∀ c ∈ "a | 3".data, c ≠ '\n')
     ∧ goTrim "a | 3".data = "a | 3".data
     ∧ containsSeq "a | 3".data ("files changed".data) = false
     ∧ containsSeq "a | 3".data ("file changed".data) = false
     ∧ matchStat "a | 3".data = some ("a".data, "3".data, 0, 0)
     ∧ goAtoiNat "3".data = some 3)
    ∧ (parseGitStatOutput "a | 3"
        = [{ Path := String.mk (goTrim "a".data), Additions := 3 / 2,
             Deletions := 3 - 3 / 2 }]
       ∧ 3 / 2 + (3 - 3 / 2) = 3) :=
  ⟨⟨by decide, by decide, by decide, by decide, by decide, by decide⟩,
   count_only_line_split "a | 3" "a".data "3".data 3 (by decide) (by decide) (by decide)
     (by decide) (by decide) (by decide)⟩

theorem handlePullComplete_pendingPulls (g : GitOracle) (m : Model) (msg : pullCompleteMsg) :
    (handlePullComplete g m msg).pendingPulls = pendingAfter m.pendingPulls msg.path := by
  unfold handlePullComplete
  dsimp only
  split
  · rfl
  · split
    · split
      · rfl
      · rfl
    · rfl

theorem handlePullComplete_pullResults (g : GitOracle) (m : Model) (msg : pullCompleteMsg) :
    (handlePullComplete g m msg).pullResults
      = appendResult g m.pullResults m.pendingPulls (resolveRepoName m msg.path) msg := by
  unfold handlePullComplete
  dsimp only
  split
  · rfl
  · split
    · split
      · rfl
      · rfl
    · rfl

theorem mapMem_false_of_lookup_none (pp : List (String × String)) (k : String)
    (h : mapLookup pp k = none) : mapMem pp k = false := by
  simp only [mapLookup, Option.map_eq_none', List.find?_eq_none] at h
  simp only [mapMem, List.any_eq_false]
  exact h

/-- C10: a completion event whose path has no pending entry leaves both
the pull-results list and the pending map unchanged (the handler may still
update the repo's pull-result label and status message). -/
theorem stale_pull_completion_frame (g : GitOracle) (m : Model) (msg : pullCompleteMsg)
    (h : mapLookup m.pendingPulls msg.path = none) :
    (handlePullComplete g m msg).pullResults = m.pullResults
    ∧ (handlePullComplete g m msg).pendingPulls = m.pendingPulls := by
  constructor
  · rw [handlePullComplete_pullResults]
    simp [appendResult, h]
  · rw [handlePullComplete_pendingPulls]
    simp [pendingAfter, mapMem_false_of_lookup_none _ _ h]

/-- Witness for `stale_pull_completion_frame` on `modelW` with a stale
path. -/
theorem stale_pull_completion_frame_witness :
    (mapLookup modelW.pendingPulls msgStaleW.path = none)
    ∧ ((handlePullComplete oracleW modelW msgStaleW).pullResults = modelW.pullResults
       ∧ (handlePullComplete oracleW modelW msgStaleW).pendingPulls = modelW.pendingPulls) :=
  ⟨by decide, stale_pull_completion_frame oracleW modelW msgStaleW (by decide)⟩

/-- C9: in the branches pane, a delete task is only ever dispatched for a
selected branch with IsCurrent=false and IsLocal=true (and, for 'x', also
IsRemote=false, with force=false; 'X' forces); when the selected branch is
current, both keys only set the status message and dispatch nothing. -/
theorem current_branch_never_deleted (st : BranchPane) (k : BranchKey) (b : BranchInfo)
    (hb : st.branches[st.branchIndex]? = some b) (hd : st.hasDetailRepo = true) :
    (∀ st2 task, handleBranchKey st k = some (st2, some task) →
        st2 = st ∧ b.IsCurrent = false ∧ b.IsLocal = true
        ∧ (k = BranchKey.x → b.IsRemote = false)
        ∧ task = { path := st.repoPath, branch := b.Name
                   force := decide (k = BranchKey.X) })
    ∧ (b.IsCurrent = true →
        handleBranchKey st k
          = some ({ st with statusMsg := "Cannot delete current branch" }, none)) := by
  have hlen : 0 < st.branches.length := by
    rcases List.getElem?_eq_some.mp hb with ⟨hlt, _⟩
    omega
  have hcond : 0 < st.branches.length ∧ st.hasDetailRepo = true := ⟨hlen, hd⟩
  constructor
  · intro st2 task htask
    simp only [handleBranchKey, if_pos hcond, hb] at htask
    cases k <;>
      rcases hcur : b.IsCurrent <;> rcases hloc : b.IsLocal <;> rcases hrem : b.IsRemote <;>
        simp_all <;>
          (try (obtain ⟨h1, h2⟩ := htask; subst h1; exact h2.symm))
  · intro hcur
    cases k <;> simp [handleBranchKey, if_pos hcond, hb, hcur]

/-- Witness for `current_branch_never_deleted` on `paneW` (current branch
selected) with the force-delete key. -/
theorem current_branch_never_deleted_witness :
    (paneW.branches[paneW.branchIndex]? = some branchW ∧ paneW.hasDetailRepo = true)
    ∧ ((∀ st2 task, handleBranchKey paneW BranchKey.X = some (st2, some task) →
          st2 = paneW ∧ branchW.IsCurrent = false ∧ branchW.IsLocal = true
          ∧ (BranchKey.X = BranchKey.x → branchW.IsRemote = false)
          ∧ task = { path := paneW.repoPath, branch := branchW.Name
                     force := decide (BranchKey.X = BranchKey.X) })
       ∧ (branchW.IsCurrent = true →
           handleBranchKey paneW BranchKey.X
             = some ({ paneW with statusMsg := "Cannot delete current branch" }, none))) :=
  ⟨⟨by decide, by decide⟩,
   current_branch_never_deleted paneW BranchKey.X branchW (by decide) (by decide)⟩

/-- C2: a `PullResultInfo` is appended to the round's results if and only
if the pull succeeded, its output does not contain "Already up to date",
the path was in the pending set, and the commit range between the captured
pre-pull head and the post-pull head is non-empty; in particular identical
pre/post heads contribute nothing. -/
theorem pull_result_aggregation (g : GitOracle) (m : Model) (msg : pullCompleteMsg)
    (hrefl : ∀ p h, g.getCommitsBetween p h h = []) :
    (∀ oldHead, mapLookup m.pendingPulls msg.path = some oldHead →
        (handlePullComplete g m msg).pullResults
          = (if msg.err = none
                ∧ containsSeq msg.result.data ("Already up to date".data) = false
                ∧ g.getCommitsBetween msg.path oldHead (g.getHeadCommit msg.path) ≠ []
             then m.pullResults
                    ++ [{ RepoPath := msg.path
                          RepoName := resolveRepoName m msg.path
                          Commits := g.getCommitsBetween msg.path oldHead (g.getHeadCommit msg.path)
                          FilesChanged := g.getFilesChangedCount msg.path oldHead (g.getHeadCommit msg.path)
                          Updated := true }]
             else m.pullResults))
    ∧ (∀ oldHead, mapLookup m.pendingPulls msg.path = some oldHead →
        g.getHeadCommit msg.path = oldHead →
        (handlePullComplete g m msg).pullResults = m.pullResults)
    ∧ (mapLookup m.pendingPulls msg.path = none →
        (handlePullComplete g m msg).pullResults = m.pullResults) := by
  have hmain : ∀ oldHead, mapLookup m.pendingPulls msg.path = some oldHead →
      (handlePullComplete g m msg).pullResults
        = (if msg.err = none
              ∧ containsSeq msg.result.data ("Already up to date".data) = false
              ∧ g.getCommitsBetween msg.path oldHead (g.getHeadCommit msg.path) ≠ []
           then m.pullResults
                  ++ [{ RepoPath := msg.path
                        RepoName := resolveRepoName m msg.path
                        Commits := g.getCommitsBetween msg.path oldHead (g.getHeadCommit msg.path)
                        FilesChanged := g.getFilesChangedCount msg.path oldHead (g.getHeadCommit msg.path)
                        Updated := true }]
           else m.pullResults) := by
    intro oldHead hold
    rw [handlePullComplete_pullResults]
    by_cases hA1 : msg.err = none
    · by_cases hA2 : containsSeq msg.result.data ("Already up to date".data) = false
      · by_cases hC : g.getCommitsBetween msg.path oldHead (g.getHeadCommit msg.path) = []
        · simp [appendResult, hold, hA1, hA2, hC]
        · simp [appendResult, hold, hA1, hA2, hC, List.length_pos.mpr hC]
      · simp [appendResult, hold, hA1, hA2]
    · simp [appendResult, hold, hA1]
  refine ⟨hmain, ?_, ?_⟩
  · intro oldHead hold hhead
    rw [hmain oldHead hold, hhead, hrefl]
    simp
  · intro h
    rw [handlePullComplete_pullResults]
    simp [appendResult, h]

/-- Witness for `pull_result_aggregation` on `oracleW`, `modelW`, `msgW`. -/
theorem pull_result_aggregation_witness :
    (∀ p h, oracleW.getCommitsBetween p h h = [])
    ∧ ((∀ oldHead, mapLookup modelW.pendingPulls msgW.path = some oldHead →
          (handlePullComplete oracleW modelW msgW).pullResults
            = (if msgW.err = none
                  ∧ containsSeq msgW.result.data ("Already up to date".data) = false
                  ∧ oracleW.getCommitsBetween msgW.path oldHead (oracleW.getHeadCommit msgW.path) ≠ []
               then modelW.pullResults
                      ++ [{ RepoPath := msgW.path
                            RepoName := resolveRepoName modelW msgW.path
                            Commits := oracleW.getCommitsBetween msgW.path oldHead (oracleW.getHeadCommit msgW.path)
                            FilesChanged := oracleW.getFilesChangedCount msgW.path oldHead (oracleW.getHeadCommit msgW.path)
                            Updated := true }]
               else modelW.pullResults))
       ∧ (∀ oldHead, mapLookup modelW.pendingPulls msgW.path = some oldHead →
            oracleW.getHeadCommit msgW.path = oldHead →
            (handlePullComplete oracleW modelW msgW).pullResults = modelW.pullResults)
       ∧ (mapLookup modelW.pendingPulls msgW.path = none →
            (handlePullComplete oracleW modelW msgW).pullResults = modelW.pullResults)) :=
  ⟨fun p h => by simp [oracleW],
   pull_result_aggregation oracleW modelW msgW (fun p h => by simp [oracleW])⟩

theorem pendingAfter_eq_erase (pp : List (String × String)) (k : String) :
    pendingAfter pp k = mapErase pp k := by
  unfold pendingAfter
  split
  · rfl
  · next h =>
    have hf : mapMem pp k = false := by
      cases hmm : mapMem pp k
      · rfl
      · exact absurd hmm h
    have hall : ∀ kv ∈ pp, ¬ kv.1 = k := by
      simpa [mapMem, List.any_eq_false] using hf
    symm
    rw [mapErase]
    apply List.filter_eq_self.mpr
    intro a ha
    simpa using hall a ha

theorem foldl_handle_pendingPulls (g : GitOracle) (msgs : List pullCompleteMsg) (m : Model) :
    (List.foldl (handlePullComplete g) m msgs).pendingPulls
      = List.foldl (fun pp (msg : pullCompleteMsg) => mapErase pp msg.path)
          m.pendingPulls msgs := by
  induction msgs generalizing m with
  | nil => rfl
  | cons a t ih =>
    rw [List.foldl_cons, List.foldl_cons, ih, handlePullComplete_pendingPulls,
      pendingAfter_eq_erase]

theorem foldl_erase_eq_filter (paths : List String) (pp : List (String × String)) :
    List.foldl (fun pp p => mapErase pp p) pp paths
      = pp.filter fun kv => !(memb kv.1 paths) := by
  induction paths generalizing pp with
  | nil =>
    symm
    apply List.filter_eq_self.mpr
    intro a _
    simp [memb]
  | cons p t ih =>
    rw [List.foldl_cons, ih]
    rw [mapErase, List.filter_filter]
    apply List.filter_congr
    intro kv _
    by_cases h : kv.1 = p
    · simp [memb, h]
    · have h2 : ¬ p = kv.1 := fun he => h he.symm
      simp [memb, h, h2]

theorem mem_key_foldl_insert (g : GitOracle) (repos : List Repo)
    (pp : List (String × String)) (k : String) :
    (∃ kv ∈ List.foldl (fun pp (r : Repo) => mapInsert pp r.Path (g.getHeadCommit r.Path))
        pp repos, kv.1 = k)
      ↔ ((∃ kv ∈ pp, kv.1 = k) ∨ ∃ r ∈ repos, r.Path = k) := by
  induction repos generalizing pp with
  | nil => simp
  | cons r t ih =>
    rw [List.foldl_cons, ih]
    constructor
    · rintro (⟨kv, hkv, he⟩ | ⟨r2, hr2, he⟩)
      · rcases List.mem_append.mp hkv with hf | hs
        · exact Or.inl ⟨kv, (List.mem_filter.mp hf).1, he⟩
        · right
          refine ⟨r, List.mem_cons_self r t, ?_⟩
          have : kv = (r.Path, g.getHeadCommit r.Path) := by simpa using hs
          rw [this] at he
          exact he
      · exact Or.inr ⟨r2, List.mem_cons_of_mem r hr2, he⟩
    · rintro (⟨kv, hkv, he⟩ | ⟨r2, hr2, he⟩)
      · by_cases hk : kv.1 = r.Path
        · left
          refine ⟨(r.Path, g.getHeadCommit r.Path), ?_, ?_⟩
          · apply List.mem_append_right
            simp
          · rw [← hk]
            exact he
        · left
          refine ⟨kv, ?_, he⟩
          apply List.mem_append_left
          exact List.mem_filter.mpr ⟨hkv, by simpa using hk⟩
      · rcases List.mem_cons.mp hr2 with heq | hr2t
        · left
          refine ⟨(r.Path, g.getHeadCommit r.Path), ?_, ?_⟩
          · apply List.mem_append_right
            simp
          · have hrp : r.Path = k := by rw [← heq]; exact he
            exact hrp
        · exact Or.inr ⟨r2, hr2t, he⟩

theorem lookup_append_key (l : List (String × String)) (k v : String)
    (h : ∀ kv ∈ l, ¬ kv.1 = k) :
    mapLookup (l ++ [(k, v)]) k = some v := by
  have hn : l.find? (fun kv => kv.1 = k) = none :=
    List.find?_eq_none.mpr (by intro x hx; simpa using h x hx)
  simp [mapLookup, List.find?_append, hn, List.find?]

theorem countP_insert_self (pp : List (String × String)) (k v : String) :
    (mapInsert pp k v).countP (fun kv => kv.1 = k) = 1 := by
  simp only [mapInsert, mapErase, List.countP_append]
  have h0 : (pp.filter fun kv => kv.1 ≠ k).countP (fun kv => kv.1 = k) = 0 := by
    rw [List.countP_eq_zero]
    intro a ha
    have := (List.mem_filter.mp ha).2
    simpa using this
  rw [h0]
  simp [List.countP_cons]

/-- C1: after a batch is begun (capturing a pre-pull head per path), the
pending set is empty — the "allDone" signal — exactly when every begun
path occurs among the processed completion events, in whatever order; and
a repeated begin for a pending path overwrites the stored head, keeping a
single tracked entry for that path. -/
theorem batch_done_iff_all_completed (g : GitOracle) (m : Model) (repos : List Repo)
    (msgs : List pullCompleteMsg) :
    ((List.foldl (handlePullComplete g) (beginBatch g m repos) msgs).pendingPulls).isEmpty
      = (repos.all fun r => memb r.Path (msgs.map pullCompleteMsg.path))
    ∧ (∀ (m2 : Model) (path name : String),
        mapLookup (beginSinglePull g m2 path name).pendingPulls path
          = some (g.getHeadCommit path)
        ∧ (beginSinglePull g m2 path name).pendingPulls.countP
            (fun kv => kv.1 = path) = 1) := by
  constructor
  · rw [foldl_handle_pendingPulls]
    have hpp : (beginBatch g m repos).pendingPulls
        = List.foldl (fun pp (r : Repo) => mapInsert pp r.Path (g.getHeadCommit r.Path))
            [] repos := rfl
    rw [hpp]
    rw [← List.foldl_map pullCompleteMsg.path (fun pp p => mapErase pp p) msgs]
    rw [foldl_erase_eq_filter]
    cases hB : repos.all fun r => memb r.Path (msgs.map pullCompleteMsg.path)
    · rw [List.isEmpty_eq_false]
      rcases List.all_eq_false.mp hB with ⟨r, hr, hnp⟩
      have hmem : ∃ kv ∈ List.foldl
          (fun pp (r : Repo) => mapInsert pp r.Path (g.getHeadCommit r.Path)) [] repos,
          kv.1 = r.Path :=
        (mem_key_foldl_insert g repos [] r.Path).mpr (Or.inr ⟨r, hr, rfl⟩)
      rcases hmem with ⟨kv, hkv, hke⟩
      intro hnil
      have : kv ∈ ([] : List (String × String)) := by
        rw [← hnil]
        apply List.mem_filter.mpr
        refine ⟨hkv, ?_⟩
        have : memb kv.1 (msgs.map pullCompleteMsg.path) = false := by
          rw [hke]
          cases hmm : memb r.Path (msgs.map pullCompleteMsg.path)
          · rfl
          · exact absurd hmm hnp
        simp [this]
      simp at this
    · rw [List.isEmpty_iff]
      apply List.filter_eq_nil_iff.mpr
      intro kv hkv
      have hmem : ∃ kv2 ∈ List.foldl
          (fun pp (r : Repo) => mapInsert pp r.Path (g.getHeadCommit r.Path)) [] repos,
          kv2.1 = kv.1 :=
        ⟨kv, hkv, rfl⟩
      rcases (mem_key_foldl_insert g repos [] kv.1).mp hmem with ⟨kv2, h2, he2⟩ | ⟨r, hr, hre⟩
      · simp at h2
      · have := List.all_eq_true.mp hB r hr
        rw [hre] at this
        simp [this]
  · intro m2 path name
    constructor
    · have : (beginSinglePull g m2 path name).pendingPulls
          = mapErase m2.pendingPulls path ++ [(path, g.getHeadCommit path)] := rfl
      rw [this]
      apply lookup_append_key
      intro kv hkv
      have := (List.mem_filter.mp hkv).2
      simpa using this
    · exact countP_insert_self m2.pendingPulls path (g.getHeadCommit path)

theorem mkLocalBranch_IsLocal (c : String) (rem : List String) (lb : String × String) :
    (mkLocalBranch c rem lb).IsLocal = true := by
  unfold mkLocalBranch
  split
  · rfl
  · split <;> rfl

theorem mkLocalBranch_IsCurrent (c : String) (rem : List String) (lb : String × String) :
    (mkLocalBranch c rem lb).IsCurrent = decide (lb.1 = c) := by
  unfold mkLocalBranch
  split
  · rfl
  · split <;> rfl

theorem keys_nodup_mapInsert (pp : List (String × String)) (k v : String)
    (h : (pp.map Prod.fst).Nodup) : ((mapInsert pp k v).map Prod.fst).Nodup := by
  rw [mapInsert, List.map_append, List.nodup_append]
  refine ⟨?_, by simp, ?_⟩
  · have hs : (mapErase pp k).Sublist pp := List.filter_sublist pp
    exact h.sublist (hs.map Prod.fst)
  · intro a ha hb
    have hak : a = k := by simpa using hb
    rcases List.mem_map.mp ha with ⟨kv, hkv, hfst⟩
    have hne := (List.mem_filter.mp hkv).2
    simp only [decide_eq_true_eq] at hne
    exact hne (by rw [hfst, hak])

theorem keys_nodup_addLocalLine (lb : List (String × String)) (parts : List (List Char))
    (h : (lb.map Prod.fst).Nodup) : ((addLocalLine lb parts).map Prod.fst).Nodup := by
  cases parts with
  | nil => exact h
  | cons p0 rest =>
    simp only [addLocalLine]
    by_cases hp : p0 ≠ []
    · rw [if_pos hp]
      exact keys_nodup_mapInsert _ _ _ h
    · rw [if_neg hp]
      exact h

theorem keys_nodup_foldl (lines : List (List (List Char))) (lb : List (String × String))
    (h : (lb.map Prod.fst).Nodup) :
    ((List.foldl addLocalLine lb lines).map Prod.fst).Nodup := by
  induction lines generalizing lb with
  | nil => exact h
  | cons a t ih =>
    rw [List.foldl_cons]
    exact ih _ (keys_nodup_addLocalLine lb a h)

theorem keys_nodup_parseLocalLines (branchOut : String) :
    ((parseLocalLines branchOut).map Prod.fst).Nodup := by
  apply keys_nodup_foldl
  simp

theorem countP_key_le_one (l : List (String × String))
    (hn : (l.map Prod.fst).Nodup) (c : String) :
    (l.countP fun kv => kv.1 = c) ≤ 1 := by
  induction l with
  | nil => simp
  | cons kv t ih =>
    rw [List.map_cons, List.nodup_cons] at hn
    obtain ⟨hnot, hn2⟩ := hn
    rw [List.countP_cons]
    by_cases he : kv.1 = c
    · have h0 : (t.countP fun kv2 => kv2.1 = c) = 0 := by
        rw [List.countP_eq_zero]
        intro a ha
        simp only [decide_eq_true_eq]
        intro hac
        exact hnot (by
          rw [he, ← hac]
          exact List.mem_map_of_mem Prod.fst ha)
      simp [he, h0]
    · simp only [he, decide_eq_true_eq, if_neg he]
      simpa using ih hn2

theorem countP_map_eq_zero_of_false (f : String → BranchInfo) (l : List String)
    (p : BranchInfo → Bool) (h : ∀ a, p (f a) = false) : ((l.map f).countP p) = 0 := by
  rw [List.countP_eq_zero]
  intro b hb
  rcases List.mem_map.mp hb with ⟨a, _, rfl⟩
  simp [h a]

theorem countP_map_pairs_eq_zero_of_false (f : String × String → BranchInfo)
    (l : List (String × String)) (p : BranchInfo → Bool) (h : ∀ a, p (f a) = false) :
    ((l.map f).countP p) = 0 := by
  rw [List.countP_eq_zero]
  intro b hb
  rcases List.mem_map.mp hb with ⟨a, _, rfl⟩
  simp [h a]

/-- C7: every branch produced by reconciliation exists locally or on the
remote (none has both flags false), at most one entry is current, and a
current entry is always local. -/
theorem branch_reconciliation_invariants (currentOut branchOut remoteOut : String) :
    ((loadBranches currentOut branchOut remoteOut).countP
        (fun b => !b.IsLocal && !b.IsRemote) = 0)
    ∧ ((loadBranches currentOut branchOut remoteOut).countP (fun b => b.IsCurrent) ≤ 1)
    ∧ ((loadBranches currentOut branchOut remoteOut).countP
        (fun b => b.IsCurrent && !b.IsLocal) = 0) := by
  have hperm : (loadBranches currentOut branchOut remoteOut).Perm
      (loadBranchesUnsorted currentOut branchOut remoteOut) :=
    List.mergeSort_perm _ branchLess
  refine ⟨?_, ?_, ?_⟩
  · rw [List.Perm.countP_eq _ hperm, loadBranchesUnsorted, List.countP_append]
    rw [countP_map_pairs_eq_zero_of_false _ _ _
      (fun lb => by simp [mkLocalBranch_IsLocal])]
    rw [countP_map_eq_zero_of_false _ _ _ (fun r => rfl)]
  · rw [List.Perm.countP_eq _ hperm, loadBranchesUnsorted, List.countP_append]
    rw [countP_map_eq_zero_of_false _ _ _ (fun r => rfl)]
    rw [List.countP_map]
    have he : List.countP
        ((fun b => b.IsCurrent)
          ∘ mkLocalBranch (goTrimStr currentOut) (parseRemoteLines remoteOut))
        (parseLocalLines branchOut)
        = List.countP (fun lb => lb.1 = goTrimStr currentOut) (parseLocalLines branchOut) := by
      apply List.countP_congr
      intro lb _
      simp [Function.comp, mkLocalBranch_IsCurrent]
    rw [Nat.add_zero, he]
    exact countP_key_le_one _ (keys_nodup_parseLocalLines branchOut) _
  · rw [List.Perm.countP_eq _ hperm, loadBranchesUnsorted, List.countP_append]
    rw [countP_map_pairs_eq_zero_of_false _ _ _
      (fun lb => by simp [mkLocalBranch_IsLocal])]
    rw [countP_map_eq_zero_of_false _ _ _ (fun r => rfl)]

end Guppi
